import Mathlib

/-!
# Verification of the `y3` tokenizer (`src/tokenizer.rs`)

Shallow embedding of the spell-check tokenizer.  Strings are modelled as
`List Char`; positions (the Rust code's byte offsets) are modelled as
character counts, which coincide with byte offsets on ASCII input — every
concrete input used below is ASCII, and the word pattern `[a-zA-Z]+[0-9]*[a-zA-Z]*`
only ever produces ASCII words.  Unicode character classes
(`char::is_alphanumeric`, `char::is_uppercase`, `\w`, `\s`) are modelled by
their ASCII restrictions (`Char.isAlphanum`, `Char.isUpper`, ...).

The five `ignore_patterns` regexes, the `word_pattern` regex and the
`split_pattern` regex from `Patterns::new` are embedded as executable
matchers; `Regex::is_match` (an unanchored search) is embedded as the
existence of a matching span `[i, e)` inside the string.
-/

namespace Y3

/-- Convert a string literal to the character-list representation. -/
def chars (s : String) : List Char := s.data

/-! ## Generic splitting (regex `split` keeps empty pieces) -/

/-- Split a list at every character satisfying `p`, keeping empty pieces,
exactly like splitting on the single-character regex class. -/
def splitOnP (p : Char → Bool) : List Char → List (List Char)
  | [] => [[]]
  | c :: rest =>
    if p c then [] :: splitOnP p rest
    else
      match splitOnP p rest with
      | [] => [[c]]
      | h :: t => (c :: h) :: t

/-- Embeds `str::split_whitespace`: split on whitespace, discarding empty pieces. -/
def split_whitespace (l : List Char) : List (List Char) :=
  (splitOnP Char.isWhitespace l).filter (fun c => !c.isEmpty)

/-- Embeds `str::trim_start_matches` with a character predicate. -/
def trimStartP (p : Char → Bool) (l : List Char) : List Char := l.dropWhile p

/-- Embeds `str::trim_end_matches` with a character predicate. -/
def trimEndP (p : Char → Bool) (l : List Char) : List Char :=
  (l.reverse.dropWhile p).reverse

/-- Embeds `str::trim`: strip whitespace from both ends. -/
def trimWs (l : List Char) : List Char :=
  trimEndP Char.isWhitespace (trimStartP Char.isWhitespace l)

/-- The edge-trimming predicate of `tokenize` step 2:
`|c: char| !c.is_alphanumeric() && c != '\''`. -/
def edgeTrimP (c : Char) : Bool := !c.isAlphanum && c != '\''

/-! ## Character classes used by the `Patterns` regexes -/

/-- Regex `\w` (word character), ASCII: letters, digits, underscore. -/
def isWordChar (c : Char) : Bool := c.isAlphanum || c == '_'

/-- Character class `[\w\-\.]` of the file-path pattern. -/
def isPathChar (c : Char) : Bool := isWordChar c || c == '-' || c == '.'

/-- Character class `[A-Za-z0-9._%+-]` (email local part). -/
def isEmailLocalChar (c : Char) : Bool :=
  c.isAlphanum || c == '.' || c == '_' || c == '%' || c == '+' || c == '-'

/-- Character class `[A-Za-z0-9.-]` (email domain part). -/
def isEmailDomainChar (c : Char) : Bool := c.isAlphanum || c == '.' || c == '-'

/-- Character class `[{[^()]+}]` of the regex-literal pattern: the literal
characters `{ [ ^ ( ) + }` (the `^` is not leading, so nothing is negated). -/
def isRegexClassChar (c : Char) : Bool :=
  c == '{' || c == '[' || c == '^' || c == '(' || c == ')' || c == '+' || c == '}'

/-- Regex `\b`: a word boundary sits between positions `i-1` and `i` of `s`
(with the outside of the string counting as non-word). -/
def boundaryAt (s : List Char) (i : Nat) : Bool :=
  let left := if i == 0 then false else isWordChar (s.getD (i - 1) ' ')
  let right := if i < s.length then isWordChar (s.getD i ' ') else false
  left != right

/-- The slice `s[i..e)` of a character list. -/
def slice (s : List Char) (i e : Nat) : List Char := (s.drop i).take (e - i)

/-! ## The five `ignore_patterns`, as span matchers

`spanX s i e` decides whether regex `X` matches exactly the slice `s[i..e)`
(word boundaries judged in the context of `s`).  `Regex::is_match` is then
the existence of some matching span. -/

/-- Regex `https?://\S+` matches `s[i..e)`: the prefix `http://` or `https://`
followed by at least one non-whitespace character running to `e`. -/
def spanUrl (s : List Char) (i e : Nat) : Bool :=
  let t := slice s i e
  ((t.take 7 == chars "http://" && decide (7 < t.length) &&
      (t.drop 7).all (fun c => !c.isWhitespace)) ||
   (t.take 8 == chars "https://" && decide (8 < t.length) &&
      (t.drop 8).all (fun c => !c.isWhitespace)))

/-- Regex `[\w\-\.]+(/[\w\-\.]+)+` matches `s[i..e)`: two or more non-empty
`/`-separated segments of path characters (the class excludes `/`, so the
slice matches exactly when splitting it on `/` gives ≥ 2 pieces, all
non-empty and made of path characters). -/
def spanPath (s : List Char) (i e : Nat) : Bool :=
  let parts := splitOnP (fun c => c == '/') (slice s i e)
  decide (2 ≤ parts.length) &&
    parts.all (fun p => !p.isEmpty && p.all isPathChar)

/-- Regex `\b\d+\b` matches `s[i..e)`: a non-empty all-digit slice with word
boundaries on both sides. -/
def spanNum (s : List Char) (i e : Nat) : Bool :=
  let t := slice s i e
  !t.isEmpty && t.all Char.isDigit && boundaryAt s i && boundaryAt s e

/-- Regex `\\[a-zA-Z]+[{[^()]+}]*` matches `s[i..e)`: a backslash, then one or
more ASCII letters, then any number of characters from the literal class
`[{[^()]+}]` (letters and class characters are disjoint, so the greedy
decomposition is the only one). -/
def spanRegexLit (s : List Char) (i e : Nat) : Bool :=
  match slice s i e with
  | [] => false
  | c :: rest =>
    let letters := rest.takeWhile Char.isAlpha
    c == '\\' && !letters.isEmpty &&
      (rest.drop letters.length).all isRegexClassChar

/-- Regex `\b[A-Za-z0-9._%+-]+@[A-Za-z0-9.-]+\.[A-Za-z]{2,}\b` matches `s[i..e)`.
The local and domain classes exclude `@`, so the slice must contain exactly
one `@`; the TLD excludes `.`, so the separating dot must be the last dot
after the `@`. -/
def spanEmail (s : List Char) (i e : Nat) : Bool :=
  boundaryAt s i && boundaryAt s e &&
    (match splitOnP (fun c => c == '@') (slice s i e) with
     | [loc, dom] =>
       let tld := (dom.reverse.takeWhile (fun c => c != '.')).reverse
       let sep := dom.length - tld.length   -- 0 when dom has no dot
       !loc.isEmpty && loc.all isEmailLocalChar &&
         decide (tld.length + 1 ≤ dom.length) &&
         (let e2 := dom.take (sep - 1)
          !e2.isEmpty && e2.all isEmailDomainChar) &&
         tld.all Char.isAlpha && decide (2 ≤ tld.length)
     | _ => false)

/-- Embeds `Regex::is_match`: some span `[i, e)` of `s` matches the pattern. -/
def existsSpan (p : List Char → Nat → Nat → Bool) (s : List Char) : Bool :=
  (List.range (s.length + 1)).any fun i =>
    (List.range (s.length + 1)).any fun e => p s i e

/-- Embeds `self.patterns.ignore_patterns.iter().any(|p| p.is_match(chunk))`. -/
def ignoreAny (s : List Char) : Bool :=
  existsSpan spanUrl s || existsSpan spanPath s || existsSpan spanNum s ||
    existsSpan spanRegexLit s || existsSpan spanEmail s

/-- The claim-side notion "the entire trimmed content matches one of the
ignore patterns": some ignore pattern matches the whole string. -/
def fullMatchAny (s : List Char) : Bool :=
  spanUrl s 0 s.length || spanPath s 0 s.length || spanNum s 0 s.length ||
    spanRegexLit s 0 s.length || spanEmail s 0 s.length

/-! ## The `word_pattern` matcher: `[a-zA-Z]+[0-9]*[a-zA-Z]*` -/

/-- Length of the match of `[a-zA-Z]+[0-9]*[a-zA-Z]*` starting at the head
of `t` (meaningful when the head is a letter): greedily letters, then
digits, then letters — the classes are disjoint and nothing follows, so
the regex's greedy semantics is exactly `takeWhile`. -/
def matchLenAt (t : List Char) : Nat :=
  let a := t.takeWhile Char.isAlpha
  let t2 := t.dropWhile Char.isAlpha
  let b := t2.takeWhile Char.isDigit
  let t3 := t2.dropWhile Char.isDigit
  let c := t3.takeWhile Char.isAlpha
  a.length + b.length + c.length

/-- Worker for `find_iter`: scan the remaining characters `t` (which sit at
position `i` of the sub-chunk); at each letter take the (non-empty) greedy
match and continue past it.  `fuel` bounds the recursion; `fuel = t.length`
is always enough since every step consumes at least one character. -/
def findWordsAux : Nat → List Char → Nat → List (Nat × List Char)
  | 0, _, _ => []
  | _ + 1, [], _ => []
  | fuel + 1, c :: rest, i =>
    if c.isAlpha then
      let m := matchLenAt (c :: rest)
      (i, (c :: rest).take m) :: findWordsAux fuel ((c :: rest).drop m) (i + m)
    else
      findWordsAux fuel rest (i + 1)

/-- All matches of `word_pattern` in `s`, left to right, each with its
start offset within `s` (the embedding of `word_pattern.find_iter(sub_chunk)`). -/
def wordMatches (s : List Char) : List (Nat × List Char) :=
  findWordsAux s.length s 0

/-! ## `Tokenizer::split_word_cases` -/

/-- Loop of `split_word_cases`: `w` is the whole word, `rest = w.drop i` the
characters not yet visited, `start` the start of the segment being
accumulated (so `slice w start i` is Rust's `word[start..i]`).  After the
loop the remaining `word[start..]` is always pushed. -/
def swcGo (w : List Char) : List Char → Nat → Nat → List (List Char)
  | [], _, start => [w.drop start]
  | c :: rest, i, start =>
    if 0 < i ∧ c.isUpper ∧ ¬ (slice w start i).all Char.isUpper then
      slice w start i :: swcGo w rest (i + 1) i
    else
      swcGo w rest (i + 1) start

/-- Embeds `Tokenizer::split_word_cases`: split a word at case transitions; a new
segment begins at index `i > 0` when `w[i]` is uppercase and the segment
accumulated so far is not entirely uppercase. -/
def split_word_cases (w : List Char) : List (List Char) := swcGo w w 0 0

/-! ## The token data model -/

/-- Struct `Position { start, end, line_no }` (`end` is a Lean keyword, hence
`endPos`). -/
structure Position where
  start : Nat
  endPos : Nat
  line_no : Nat
  deriving Repr, DecidableEq

/-- Struct `Token { word, position }`. -/
structure Token where
  word : List Char
  position : Position
  deriving Repr, DecidableEq

/-! ## `Tokenizer::tokenize`, per line -/

/-- Step 6 of `tokenize` for one `word_pattern` match `m` (start offset and
matched text): drop a single-letter match, otherwise case-split it and emit
one token per sub-word, all sharing `start = offset + mat.start`,
`end = offset + mat.end - 1` and `line_no + 1`. -/
def matchTokens (offset line_no : Nat) (m : Nat × List Char) : List Token :=
  if m.2.length == 1 then []
  else
    (split_word_cases m.2).map fun sw =>
      { word := sw
        position :=
          { start := offset + m.1
            endPos := offset + m.1 + m.2.length - 1
            line_no := line_no + 1 } }

/-- Steps 5–6 of `tokenize` for one separator-split sub-chunk: emit the
tokens of every `word_pattern` match, left to right. -/
def processSubChunk (offset line_no : Nat) (sc : List Char) : List Token :=
  (wordMatches sc).flatMap (matchTokens offset line_no)

/-- Steps 1–2 applied to one chunk: `chunk.trim()` followed by the
edge-trimming of symbols and brackets at start and end. -/
def trimChunk (chunk : List Char) : List Char :=
  trimEndP edgeTrimP (trimStartP edgeTrimP (trimWs chunk))

/-- The body of `for chunk in chunks` in `tokenize`.  State: the running
`offset` and the tokens pushed so far.  Note the two `continue`s (empty
after trimming, ignore-pattern hit) skip the offset update, and the update
adds the length of the *trimmed* chunk (the `chunk` binding is shadowed). -/
def processChunk (line_no : Nat) (st : Nat × List Token) (chunk : List Char) :
    Nat × List Token :=
  let offset := st.1
  let trimmed := trimChunk chunk
  if trimmed.isEmpty then st
  else if ignoreAny trimmed then st
  else
    let subChunks := splitOnP (fun c => c == ' ' || c == '_' || c == '-' || c == '—') trimmed
    let toks := subChunks.flatMap fun sc =>
      if sc.isEmpty then [] else processSubChunk offset line_no sc
    (offset + trimmed.length + 1, st.2 ++ toks)

/-- One line of `tokenize` (`line_no` is the 0-based line index): split on
whitespace and fold the chunk loop with `offset = 0`. -/
def processLine (line : List Char) (line_no : Nat) : List Token :=
  ((split_whitespace line).foldl (processChunk line_no) (0, [])).2

/-! ## `Tokenizer::tokenize`, whole source

I/O is modelled explicitly: opening the file yields either an error or a
list of line reads, and each line read yields either an error or the line's
text, mirroring `File::open(file_path)?` and `reader.lines()`. -/

/-- An I/O error (opaque payload). -/
abbrev Err := String

/-- The line loop of `tokenize`: each successful line appends its tokens;
the first failed read returns the error, keeping the tokens already
appended. -/
def tokenizeLines (acc : List Token) (line_no : Nat) :
    List (Except Err (List Char)) → List Token × Except Err Unit
  | [] => (acc, .ok ())
  | .error e :: _ => (acc, .error e)
  | .ok line :: rest =>
    tokenizeLines (acc ++ processLine line line_no) (line_no + 1) rest

/-- Embeds `Tokenizer::tokenize` on an already-accumulated token list: an open
failure returns immediately, otherwise the lines are processed in order. -/
def tokenizeRun (acc : List Token) :
    Except Err (List (Except Err (List Char))) → List Token × Except Err Unit
  | .error e => (acc, .error e)
  | .ok lns => tokenizeLines acc 0 lns

/-- The `Tokenizer` state: its accumulated tokens (the compiled `Patterns`
value is constant and carries no state). -/
structure Tokenizer where
  tokens : List Token
  deriving Repr, DecidableEq

/-- Embeds `Tokenizer::clear_tokens`. -/
def clear_tokens (t : Tokenizer) : Tokenizer := { t with tokens := [] }

/-- Embeds `Tokenizer::tokenize` as a state transformer on the `Tokenizer`. -/
def tokenize (t : Tokenizer) (src : Except Err (List (Except Err (List Char)))) :
    Tokenizer × Except Err Unit :=
  let r := tokenizeRun t.tokens src
  ({ tokens := r.1 }, r.2)

/-- Tokens of a list of error-free lines, numbering from `line_no`. -/
def linesTokens : List (List Char) → Nat → List Token
  | [], _ => []
  | l :: ls, n => processLine l n ++ linesTokens ls (n + 1)

end Y3

namespace Y3

/-! ## Helper lemmas: spans and character classes -/

/-- A pattern matching the whole string is in particular found by the
unanchored search. -/
theorem existsSpan_of_full {p : List Char → Nat → Nat → Bool} {s : List Char}
    (h : p s 0 s.length = true) : existsSpan p s = true := by
  unfold existsSpan
  rw [List.any_eq_true]
  refine ⟨0, List.mem_range.mpr (Nat.succ_pos _), ?_⟩
  rw [List.any_eq_true]
  exact ⟨s.length, List.mem_range.mpr (Nat.lt_succ_self _), h⟩

/-- Taking as many elements as `takeWhile` keeps recovers `takeWhile`. -/
theorem take_length_takeWhile {α} (p : α → Bool) :
    ∀ l : List α, l.take (l.takeWhile p).length = l.takeWhile p := by
  intro l
  induction l with
  | nil => rfl
  | cons c l ih =>
    by_cases h : p c = true
    · simp [List.takeWhile_cons, h, ih]
    · simp [List.takeWhile_cons, h]

/-- Every element kept by `takeWhile p` satisfies any consequence of `p`. -/
theorem all_takeWhile {α} {p q : α → Bool} (himp : ∀ c, p c = true → q c = true)
    (l : List α) : (l.takeWhile p).all q = true := by
  rw [List.all_eq_true]
  intro x hx
  exact himp x (List.mem_takeWhile_imp hx)

/-- Letters are alphanumeric. -/
theorem alpha_alnum {c : Char} (h : c.isAlpha = true) : c.isAlphanum = true := by
  simp [Char.isAlphanum, h]

/-- Digits are alphanumeric. -/
theorem digit_alnum {c : Char} (h : c.isDigit = true) : c.isAlphanum = true := by
  simp [Char.isAlphanum, h]

/-- Uppercase characters are letters. -/
theorem upper_alpha {c : Char} (h : c.isUpper = true) : c.isAlpha = true := by
  simp [Char.isAlpha, h]

/-- A letter is not a digit. -/
theorem alpha_not_digit {c : Char} (h : c.isAlpha = true) : c.isDigit = false := by
  simp only [Char.isAlpha, Char.isUpper, Char.isLower, Char.isDigit,
    Bool.or_eq_true, Bool.and_eq_true, decide_eq_true_eq, Bool.and_eq_false_iff,
    decide_eq_false_iff_not, not_le, ge_iff_le] at *
  have hv : ∀ a b : UInt32, a ≤ b → a.toNat ≤ b.toNat := fun a b hh => hh
  have n65 : (65 : UInt32).toNat = 65 := rfl
  have n90 : (90 : UInt32).toNat = 90 := rfl
  have n97 : (97 : UInt32).toNat = 97 := rfl
  have n122 : (122 : UInt32).toNat = 122 := rfl
  have n57 : (57 : UInt32).toNat = 57 := rfl
  rcases h with ⟨h1, h2⟩ | ⟨h1, h2⟩ <;>
    · right
      intro h3
      have e1 := hv _ _ h1
      have e2 := hv _ _ h2
      have e3 := hv _ _ h3
      rw [n57] at e3
      first
      | (rw [n65] at e1; rw [n90] at e2; omega)
      | (rw [n97] at e1; rw [n122] at e2; omega)

/-- An alphanumeric character is not whitespace. -/
theorem alnum_not_ws {c : Char} (h : c.isAlphanum = true) :
    c.isWhitespace = false := by
  cases hw : c.isWhitespace with
  | false => rfl
  | true =>
    simp only [Char.isWhitespace, Bool.or_eq_true, decide_eq_true_eq] at hw
    rcases hw with ((rfl | rfl) | rfl) | rfl <;> exact absurd h (by decide)

/-- An alphanumeric character is not the apostrophe. -/
theorem alnum_ne_apos {c : Char} (h : c.isAlphanum = true) :
    (c == '\'') = false := by
  cases he : c == '\'' with
  | false => rfl
  | true =>
    have : c = '\'' := by simpa using he
    subst this
    exact absurd h (by decide)

/-- An alphanumeric character is none of the separator characters of
`split_pattern` (`[ _\-—]`). -/
theorem alnum_not_sep {c : Char} (h : c.isAlphanum = true) :
    (c == ' ' || c == '_' || c == '-' || c == '—') = false := by
  cases he : (c == ' ' || c == '_' || c == '-' || c == '—') with
  | false => rfl
  | true =>
    simp only [Bool.or_eq_true, beq_iff_eq] at he
    rcases he with ((rfl | rfl) | rfl) | rfl <;> exact absurd h (by decide)

end Y3

namespace Y3

/-! ## Helper lemmas: the `word_pattern` matcher -/

/-- The matched text decomposes as letters, then digits, then letters. -/
theorem take_matchLenAt (t : List Char) :
    t.take (matchLenAt t) =
      t.takeWhile Char.isAlpha
        ++ ((t.dropWhile Char.isAlpha).takeWhile Char.isDigit
        ++ ((t.dropWhile Char.isAlpha).dropWhile Char.isDigit).takeWhile Char.isAlpha) := by
  have hAD := List.takeWhile_append_dropWhile Char.isAlpha t
  have hBD := List.takeWhile_append_dropWhile Char.isDigit (t.dropWhile Char.isAlpha)
  generalize hA : t.takeWhile Char.isAlpha = A at *
  generalize hD : t.dropWhile Char.isAlpha = D at *
  generalize hB : D.takeWhile Char.isDigit = B at *
  generalize hD2 : D.dropWhile Char.isDigit = D2 at *
  have hC := take_length_takeWhile Char.isAlpha D2
  generalize hCv : D2.takeWhile Char.isAlpha = C at *
  have hlen : matchLenAt t = A.length + B.length + C.length := by
    simp [matchLenAt, hA, hD, hB, hD2, hCv]
  rw [hlen, ← hAD, List.take_append_eq_append_take,
    List.take_of_length_le (by omega)]
  have h1 : A.length + B.length + C.length - A.length = B.length + C.length := by
    omega
  rw [h1, ← hBD, List.take_append_eq_append_take,
    List.take_of_length_le (by omega)]
  have h2 : B.length + C.length - B.length = C.length := by omega
  rw [h2, hC]

/-- Every character of a `word_pattern` match is alphanumeric. -/
theorem matchWord_all_alnum (t : List Char) :
    (t.take (matchLenAt t)).all Char.isAlphanum = true := by
  rw [take_matchLenAt]
  simp only [List.all_append, Bool.and_eq_true]
  exact ⟨all_takeWhile (fun c => alpha_alnum) t,
    all_takeWhile (fun c => digit_alnum) _,
    all_takeWhile (fun c => alpha_alnum) _⟩

/-- A match attempted at a letter is non-empty. -/
theorem matchLenAt_pos {c : Char} (rest : List Char) (h : c.isAlpha = true) :
    0 < matchLenAt (c :: rest) := by
  simp [matchLenAt, List.takeWhile_cons, h]

/-- Every match produced by the scanner starts at or after the scan position. -/
theorem findWordsAux_lb :
    ∀ (fuel : Nat) (t : List Char) (i : Nat) (m : Nat × List Char),
      m ∈ findWordsAux fuel t i → i ≤ m.1 := by
  intro fuel
  induction fuel with
  | zero => intro t i m hm; simp [findWordsAux] at hm
  | succ fuel ih =>
    intro t i m hm
    match t with
    | [] => simp [findWordsAux] at hm
    | c :: rest =>
      rw [findWordsAux] at hm
      by_cases hc : c.isAlpha = true
      · rw [if_pos hc] at hm
        rcases List.mem_cons.mp hm with rfl | hm'
        · exact Nat.le_refl i
        · have := ih _ _ _ hm'
          omega
      · rw [if_neg hc] at hm
        have := ih _ _ _ hm
        omega

/-- Matches are produced with strictly increasing start offsets. -/
theorem findWordsAux_pairwise :
    ∀ (fuel : Nat) (t : List Char) (i : Nat),
      List.Pairwise (fun p q => p.1 < q.1) (findWordsAux fuel t i) := by
  intro fuel
  induction fuel with
  | zero => intro t i; simp [findWordsAux]
  | succ fuel ih =>
    intro t i
    match t with
    | [] => simp [findWordsAux]
    | c :: rest =>
      rw [findWordsAux]
      by_cases hc : c.isAlpha = true
      · rw [if_pos hc]
        refine List.Pairwise.cons ?_ (ih _ _)
        intro q hq
        have h1 := findWordsAux_lb _ _ _ _ hq
        have h2 := matchLenAt_pos rest hc
        omega
      · rw [if_neg hc]
        exact ih _ _

/-- Every match word is non-empty, starts with a letter, and is wholly
alphanumeric. -/
theorem findWordsAux_shape :
    ∀ (fuel : Nat) (t : List Char) (i : Nat) (m : Nat × List Char),
      m ∈ findWordsAux fuel t i →
        ∃ c cs, m.2 = c :: cs ∧ c.isAlpha = true ∧ m.2.all Char.isAlphanum = true := by
  intro fuel
  induction fuel with
  | zero => intro t i m hm; simp [findWordsAux] at hm
  | succ fuel ih =>
    intro t i m hm
    match t with
    | [] => simp [findWordsAux] at hm
    | c :: rest =>
      rw [findWordsAux] at hm
      by_cases hc : c.isAlpha = true
      · rw [if_pos hc] at hm
        rcases List.mem_cons.mp hm with rfl | hm'
        · have hpos := matchLenAt_pos rest hc
          have hall := matchWord_all_alnum (c :: rest)
          match hL : matchLenAt (c :: rest) with
          | 0 => omega
          | k + 1 =>
            rw [hL] at hall
            exact ⟨c, rest.take k, by simp [List.take_succ_cons], hc,
              by simpa [List.take_succ_cons] using hall⟩
        · exact ih _ _ _ hm'
      · rw [if_neg hc] at hm
        exact ih _ _ _ hm

end Y3

namespace Y3

/-! ## Helper lemmas: `split_word_cases` -/

/-- A trivially-true relation is pairwise on every list. -/
theorem pairwise_of_all {α} {R : α → α → Prop} (h : ∀ a b, R a b) :
    ∀ l : List α, List.Pairwise R l
  | [] => .nil
  | x :: xs => .cons (fun y _ => h x y) (pairwise_of_all h xs)

/-- Concatenating the segments produced from position `i` onwards yields
the untraversed part `word[start..]` of the word. -/
theorem swcGo_flatten (w : List Char) :
    ∀ (rest : List Char) (i start : Nat), w.drop i = rest → start ≤ i →
      (swcGo w rest i start).flatten = w.drop start := by
  intro rest
  induction rest with
  | nil => intro i start _ _; simp [swcGo]
  | cons c rest ih =>
    intro i start hdrop hle
    have hdrop' : w.drop (i + 1) = rest := by
      rw [← List.drop_drop, hdrop]
      rfl
    have hjoin : slice w start i ++ w.drop i = w.drop start := by
      have h2 : w.drop i = (w.drop start).drop (i - start) := by
        rw [List.drop_drop]
        congr 1
        omega
      rw [slice, h2, List.take_append_drop]
    rw [swcGo]
    by_cases hc : 0 < i ∧ c.isUpper = true ∧
        ¬ (slice w start i).all Char.isUpper = true
    · rw [if_pos hc]
      rw [List.flatten_cons, ih (i + 1) i hdrop' (Nat.le_succ i), hjoin]
    · rw [if_neg hc]
      exact ih (i + 1) start hdrop' (Nat.le_trans hle (Nat.le_succ i))

/-- Every segment of a case-split of an alphanumeric, letter-headed word is
non-empty, starts with a letter, and is wholly alphanumeric. -/
theorem swcGo_shape (w : List Char) (hw : w.all Char.isAlphanum = true) :
    ∀ (rest : List Char) (i start : Nat), w.drop i = rest → start ≤ i →
      (∃ d ds, w.drop start = d :: ds ∧ d.isAlpha = true) →
      ∀ seg ∈ swcGo w rest i start,
        ∃ c cs, seg = c :: cs ∧ c.isAlpha = true ∧
          seg.all Char.isAlphanum = true := by
  have hwmem : ∀ x, x ∈ w → x.isAlphanum = true := List.all_eq_true.mp hw
  intro rest
  induction rest with
  | nil =>
    intro i start _ _ hinv seg hseg
    rcases hinv with ⟨d, ds, hds, hd⟩
    simp only [swcGo, List.mem_singleton] at hseg
    subst hseg
    refine ⟨d, ds, hds, hd, List.all_eq_true.mpr ?_⟩
    intro x hx
    exact hwmem x (List.mem_of_mem_drop hx)
  | cons c rest ih =>
    intro i start hdrop hle hinv seg hseg
    have hdrop' : w.drop (i + 1) = rest := by
      rw [← List.drop_drop, hdrop]
      rfl
    rw [swcGo] at hseg
    by_cases hc : 0 < i ∧ c.isUpper = true ∧
        ¬ (slice w start i).all Char.isUpper = true
    · rw [if_pos hc] at hseg
      rcases List.mem_cons.mp hseg with rfl | hseg'
      · rcases hinv with ⟨d, ds, hds, hd⟩
        have hne : slice w start i ≠ [] := by
          intro he
          exact hc.2.2 (by rw [he]; rfl)
        rw [slice, hds] at hne ⊢
        match hk : i - start with
        | 0 => exact absurd (by rw [hk]; rfl) hne
        | k + 1 =>
          rw [List.take_succ_cons]
          refine ⟨d, ds.take k, rfl, hd, List.all_eq_true.mpr ?_⟩
          intro x hx
          rcases List.mem_cons.mp hx with rfl | hx'
          · exact hwmem x (List.mem_of_mem_drop (by rw [hds]; exact List.mem_cons_self _ _))
          · have hx2 : x ∈ w.drop start := by
              rw [hds]
              exact List.mem_cons_of_mem _ (List.mem_of_mem_take hx')
            exact hwmem x (List.mem_of_mem_drop hx2)
      · refine ih (i + 1) i hdrop' (Nat.le_succ i) ⟨c, rest, hdrop, upper_alpha hc.2.1⟩ seg hseg'
    · rw [if_neg hc] at hseg
      exact ih (i + 1) start hdrop' (Nat.le_trans hle (Nat.le_succ i)) hinv seg hseg

/-- The full round trip for `split_word_cases`. -/
theorem split_word_cases_flatten (w : List Char) :
    (split_word_cases w).flatten = w := by
  have := swcGo_flatten w w 0 0 rfl (Nat.le_refl 0)
  simpa [split_word_cases] using this

end Y3

namespace Y3

/-! ## Helper lemmas: the tokenize pipeline -/

/-- Shape of a token emitted for one `word_pattern` match. -/
theorem mem_matchTokens {offset n : Nat} {m : Nat × List Char} {t : Token}
    (ht : t ∈ matchTokens offset n m) :
    m.2.length ≠ 1 ∧ t.word ∈ split_word_cases m.2 ∧
      t.position.start = offset + m.1 ∧
      t.position.endPos = offset + m.1 + m.2.length - 1 ∧
      t.position.line_no = n + 1 := by
  unfold matchTokens at ht
  by_cases h1 : (m.2.length == 1) = true
  · rw [if_pos h1] at ht
    simp at ht
  · rw [if_neg h1] at ht
    rcases List.mem_map.mp ht with ⟨sw, hsw, rfl⟩
    exact ⟨by simpa using h1, hsw, rfl, rfl, rfl⟩

/-- Shape of a token emitted while processing one sub-chunk: it comes from
some `word_pattern` match of length ≥ 2, whose bounds determine its
position fields. -/
theorem mem_processSubChunk {offset n : Nat} {sc : List Char} {t : Token}
    (ht : t ∈ processSubChunk offset n sc) :
    ∃ m, m ∈ wordMatches sc ∧ 2 ≤ m.2.length ∧
      t.word ∈ split_word_cases m.2 ∧
      t.position.start = offset + m.1 ∧
      t.position.endPos = offset + m.1 + m.2.length - 1 ∧
      t.position.line_no = n + 1 := by
  unfold processSubChunk at ht
  rcases List.mem_flatMap.mp ht with ⟨m, hm, hmem⟩
  rcases mem_matchTokens hmem with ⟨h1, h2, h3, h4, h5⟩
  rcases findWordsAux_shape _ _ _ _ hm with ⟨c, cs, hw, _, _⟩
  have hlen : 1 ≤ m.2.length := by rw [hw]; simp
  exact ⟨m, hm, by omega, h2, h3, h4, h5⟩

/-- All tokens of one match block share the block's start offset. -/
theorem matchTokens_start {offset n : Nat} {m : Nat × List Char} {t : Token}
    (ht : t ∈ matchTokens offset n m) : t.position.start = offset + m.1 :=
  (mem_matchTokens ht).2.2.1

/-- Within one sub-chunk, token start offsets are non-decreasing in emission
order. -/
theorem processSubChunk_pairwise (offset n : Nat) (sc : List Char) :
    List.Pairwise (fun a b => a.position.start ≤ b.position.start)
      (processSubChunk offset n sc) := by
  unfold processSubChunk
  rw [List.flatMap_def]
  rw [List.pairwise_flatten]
  constructor
  · intro l hl
    rcases List.mem_map.mp hl with ⟨m, _, rfl⟩
    refine List.pairwise_of_forall_mem_list ?_
    intro a ha b hb
    rw [matchTokens_start ha, matchTokens_start hb]
  · refine List.pairwise_map.mpr ?_
    refine List.Pairwise.imp ?_ (findWordsAux_pairwise sc.length sc 0)
    intro m1 m2 hlt x hx y hy
    rw [matchTokens_start hx, matchTokens_start hy]
    omega

/-- Every token reached by folding `processChunk` is either carried over
from the initial state or emitted for some sub-chunk at some offset. -/
theorem mem_processChunk {n : Nat} {st : Nat × List Token} {chunk : List Char}
    {t : Token} (ht : t ∈ (processChunk n st chunk).2) :
    t ∈ st.2 ∨ ∃ offset sc, t ∈ processSubChunk offset n sc := by
  unfold processChunk at ht
  by_cases h1 : (trimChunk chunk).isEmpty = true
  · rw [if_pos h1] at ht
    exact Or.inl ht
  · rw [if_neg h1] at ht
    by_cases h2 : ignoreAny (trimChunk chunk) = true
    · rw [if_pos h2] at ht
      exact Or.inl ht
    · rw [if_neg h2] at ht
      simp only at ht
      rcases List.mem_append.mp ht with hl | hr
      · exact Or.inl hl
      · rcases List.mem_flatMap.mp hr with ⟨sc, _, hmem⟩
        by_cases h3 : sc.isEmpty = true
        · rw [if_pos h3] at hmem
          simp at hmem
        · rw [if_neg h3] at hmem
          exact Or.inr ⟨st.1, sc, hmem⟩

/-- Lifting `mem_processChunk` through the chunk fold. -/
theorem mem_foldl_processChunk {n : Nat} :
    ∀ (chunks : List (List Char)) (st : Nat × List Token) (t : Token),
      t ∈ (chunks.foldl (processChunk n) st).2 →
      t ∈ st.2 ∨ ∃ offset sc, t ∈ processSubChunk offset n sc := by
  intro chunks
  induction chunks with
  | nil => intro st t ht; exact Or.inl ht
  | cons c cs ih =>
    intro st t ht
    rw [List.foldl_cons] at ht
    rcases ih _ _ ht with hin | hout
    · exact mem_processChunk hin
    · exact Or.inr hout

/-- Every token of a processed line comes from some sub-chunk. -/
theorem mem_processLine {line : List Char} {n : Nat} {t : Token}
    (ht : t ∈ processLine line n) :
    ∃ offset sc, t ∈ processSubChunk offset n sc := by
  unfold processLine at ht
  rcases mem_foldl_processChunk _ _ _ ht with hin | hout
  · simp at hin
  · exact hout

end Y3

namespace Y3

/-- A whole-string ignore-pattern match implies an `is_match` hit. -/
theorem ignoreAny_of_full {s : List Char} (h : fullMatchAny s = true) :
    ignoreAny s = true := by
  unfold fullMatchAny at h
  unfold ignoreAny
  simp only [Bool.or_eq_true] at h ⊢
  rcases h with ((((h | h) | h) | h) | h)
  · exact Or.inl (Or.inl (Or.inl (Or.inl (existsSpan_of_full h))))
  · exact Or.inl (Or.inl (Or.inl (Or.inr (existsSpan_of_full h))))
  · exact Or.inl (Or.inl (Or.inr (existsSpan_of_full h)))
  · exact Or.inl (Or.inr (existsSpan_of_full h))
  · exact Or.inr (existsSpan_of_full h)

/-- A chunk whose whole trimmed content matches an ignore pattern leaves
the state untouched: no tokens, no offset advance. -/
theorem processChunk_ignored {n : Nat} {st : Nat × List Token}
    {chunk : List Char} (h : fullMatchAny (trimChunk chunk) = true) :
    processChunk n st chunk = st := by
  unfold processChunk
  by_cases h1 : (trimChunk chunk).isEmpty = true
  · rw [if_pos h1]
  · rw [if_neg h1, if_pos (ignoreAny_of_full h)]

/-- The line loop on error-free reads: all lines processed, success. -/
theorem tokenizeLines_ok (lns : List (List Char)) :
    ∀ (acc : List Token) (n : Nat),
      tokenizeLines acc n (lns.map Except.ok) =
        (acc ++ linesTokens lns n, Except.ok ()) := by
  induction lns with
  | nil => intro acc n; simp [tokenizeLines, linesTokens]
  | cons l rest ih =>
    intro acc n
    rw [List.map_cons]
    rw [tokenizeLines, ih, linesTokens, List.append_assoc]

/-- The line loop stopping at the first failing read: the tokens of the
preceding lines are kept, the error is returned, the tail is not touched. -/
theorem tokenizeLines_err (pre : List (List Char)) :
    ∀ (acc : List Token) (n : Nat) (e : Err) (post : List (Except Err (List Char))),
      tokenizeLines acc n (pre.map Except.ok ++ Except.error e :: post) =
        (acc ++ linesTokens pre n, Except.error e) := by
  induction pre with
  | nil => intro acc n e post; simp [tokenizeLines, linesTokens]
  | cons l rest ih =>
    intro acc n e post
    rw [List.map_cons, List.cons_append]
    rw [tokenizeLines, ih, linesTokens, List.append_assoc]

/-- The line loop succeeds only when every read succeeded. -/
theorem tokenizeLines_ok_inv :
    ∀ (lns : List (Except Err (List Char))) (acc : List Token) (n : Nat),
      (tokenizeLines acc n lns).2 = Except.ok () →
      ∃ ls : List (List Char), lns = ls.map Except.ok := by
  intro lns
  induction lns with
  | nil => intro acc n _; exact ⟨[], rfl⟩
  | cons x rest ih =>
    intro acc n h
    match x with
    | .error e => simp [tokenizeLines] at h
    | .ok l =>
      rw [tokenizeLines] at h
      rcases ih _ _ h with ⟨ls, rfl⟩
      exact ⟨l :: ls, rfl⟩

end Y3

namespace Y3

/-! ## The claims -/

/-- C1, counterexample: on the line `"snake_case"` (offset 0, trimmed chunk
`"snake_case"`), the `word_pattern` candidates within the trimmed chunk are
`"snake"` at offset 0 and `"case"` at offset 6, so the claim predicts a
token with `start = 0 + 6 = 6`; the code instead anchors matches to the
separator-split sub-chunk and emits `"case"` with `start = 0`, and no token
with `start = 6` exists. -/
theorem c1_counterexample :
    (processLine (chars "snake_case") 0).map
        (fun t => (t.word, t.position.start, t.position.endPos)) =
      [(chars "snake", 0, 4), (chars "case", 0, 3)] ∧
    wordMatches (chars "snake_case") = [(0, chars "snake"), (6, chars "case")] ∧
    ¬ ∃ t ∈ processLine (chars "snake_case") 0, t.position.start = 0 + 6 := by
  decide

/-- C1 (amended): every emitted token comes from a `word_pattern` candidate
match of length ≥ 2 found in a separator-split *sub-chunk*, and carries
`start = offset + match_start`, `end = offset + match_end - 1` with
`match_start`/`match_end` the match's offsets *within that sub-chunk* (not
within the original trimmed chunk); `end` is inclusive and `start ≤ end`;
all sub-words of one case-split share these bounds, and every token of a
line carries `line_no = line index + 1`. -/
theorem c1_amended :
    (∀ (offset n : Nat) (sc : List Char) (t : Token),
        t ∈ processSubChunk offset n sc →
        ∃ m, m ∈ wordMatches sc ∧ 2 ≤ m.2.length ∧
          t.word ∈ split_word_cases m.2 ∧
          t.position.start = offset + m.1 ∧
          t.position.endPos = offset + m.1 + m.2.length - 1 ∧
          t.position.line_no = n + 1 ∧
          t.position.start ≤ t.position.endPos) ∧
    (∀ (line : List Char) (n : Nat) (t : Token),
        t ∈ processLine line n →
        t.position.start ≤ t.position.endPos ∧ t.position.line_no = n + 1) := by
  have key : ∀ (offset n : Nat) (sc : List Char) (t : Token),
      t ∈ processSubChunk offset n sc →
      ∃ m, m ∈ wordMatches sc ∧ 2 ≤ m.2.length ∧
        t.word ∈ split_word_cases m.2 ∧
        t.position.start = offset + m.1 ∧
        t.position.endPos = offset + m.1 + m.2.length - 1 ∧
        t.position.line_no = n + 1 ∧
        t.position.start ≤ t.position.endPos := by
    intro offset n sc t ht
    rcases mem_processSubChunk ht with ⟨m, hm, hlen, hw, h1, h2, h3⟩
    refine ⟨m, hm, hlen, hw, h1, h2, h3, ?_⟩
    rw [h1, h2]
    omega
  refine ⟨key, ?_⟩
  intro line n t ht
  rcases mem_processLine ht with ⟨offset, sc, hmem⟩
  rcases key offset n sc t hmem with ⟨m, _, _, _, _, _, h3, h4⟩
  exact ⟨h4, h3⟩

/-- C1, witness: the token emitted for the line `"ab"` satisfies the
position invariants. -/
theorem c1_witness :
    ((⟨chars "ab", ⟨0, 1, 1⟩⟩ : Token) ∈ processLine (chars "ab") 0) ∧
    ((⟨chars "ab", ⟨0, 1, 1⟩⟩ : Token).position.start ≤
        (⟨chars "ab", ⟨0, 1, 1⟩⟩ : Token).position.endPos ∧
      (⟨chars "ab", ⟨0, 1, 1⟩⟩ : Token).position.line_no = 0 + 1) :=
  ⟨by decide, c1_amended.2 (chars "ab") 0 _ (by decide)⟩

/-- C2: the code contradicts the claim (and its own comment, which says the
offset advances by the length of the *original* chunk).  On the line
`"((( word"` the chunk `"((("` trims to empty and is skipped *without*
advancing the offset, so `"word"` is emitted at `start = 0` instead of 4;
on the line `"(word) next"` the offset advances by the *trimmed* length
(4 + 1), so `"next"` is emitted at `start = 5` instead of 7. -/
theorem c2_code_behavior :
    (processLine (chars "((( word") 0).map
        (fun t => (t.word, t.position.start, t.position.endPos, t.position.line_no)) =
      [(chars "word", 0, 3, 1)] ∧
    (processLine (chars "(word) next") 0).map (fun t => (t.word, t.position.start)) =
      [(chars "word", 0), (chars "next", 5)] := by
  decide

/-- C3, counterexample: `split_word_cases "TITLECase"` keeps the whole word
as one segment — the accumulated segment is still entirely uppercase at
every uppercase character, so no split ever fires — refuting the claimed
outputs `["TITLE", "Case"]` and `["TITLE", "Case", "word"]`. -/
theorem c3_counterexample :
    split_word_cases (chars "TITLECase") = [chars "TITLECase"] ∧
    split_word_cases (chars "TITLECase") ≠ [chars "TITLE", chars "Case"] ∧
    (processLine (chars "TITLECase word") 0).map Token.word ≠
      [chars "TITLE", chars "Case", chars "word"] := by
  decide

/-- C3 (amended): a new segment begins at index `i > 0` exactly when
`word[i]` is uppercase and the accumulated segment is not entirely
uppercase (the branch condition of `split_word_cases`); consequently
`split_word_cases("TITLECase") = ["TITLECase"]` (no lowercase letter ever
precedes an uppercase one, so no split fires), tokenizing the line
`"TITLECase word"` emits exactly `["TITLECase", "word"]`, and on a true
camel-case word `split_word_cases("camelCaseExample") =
["camel", "Case", "Example"]`. -/
theorem c3_amended :
    split_word_cases (chars "TITLECase") = [chars "TITLECase"] ∧
    (processLine (chars "TITLECase word") 0).map Token.word =
      [chars "TITLECase", chars "word"] ∧
    split_word_cases (chars "camelCaseExample") =
      [chars "camel", chars "Case", chars "Example"] := by
  decide

/-- C4: the code contradicts the claim (and the module documentation
"Single-letter tokens are discarded").  Only the candidate *match* is
length-checked; case-splitting the two-letter match `"aB"` yields the
single-letter sub-words `"a"` and `"B"`, both emitted as tokens. -/
theorem c4_code_behavior :
    (processLine (chars "aB") 0).map
        (fun t => (t.word, t.position.start, t.position.endPos, t.position.line_no)) =
      [(chars "a", 0, 1, 1), (chars "B", 0, 1, 1)] ∧
    ∃ t ∈ processLine (chars "aB") 0, t.word.length = 1 := by
  decide

/-- C5, counterexample: on the line `"1ab_cd"` the sub-chunk `"1ab"` emits
`"ab"` with `start = 1`, then the sub-chunk `"cd"` emits `"cd"` with
`start = 0` (match offsets restart at every separator-split sub-chunk), so
the start values on this line are `[1, 0]`: not non-decreasing. -/
theorem c5_counterexample :
    (processLine (chars "1ab_cd") 0).map (fun t => (t.word, t.position.start)) =
      [(chars "ab", 1), (chars "cd", 0)] ∧
    ¬ List.Pairwise (fun a b => a.position.start ≤ b.position.start)
        (processLine (chars "1ab_cd") 0) := by
  decide

/-- C5 (amended): within a single separator-split sub-chunk, token `start`
values are non-decreasing in emission order (matches are found left to
right and all sub-words of one match share its start). -/
theorem c5_amended :
    ∀ (offset n : Nat) (sc : List Char),
      List.Pairwise (fun a b => a.position.start ≤ b.position.start)
        (processSubChunk offset n sc) :=
  fun offset n sc => processSubChunk_pairwise offset n sc

/-- C6: `split_word_cases` never drops characters — concatenating all
returned segments in order yields exactly the input word. -/
theorem c6_round_trip : ∀ w : List Char, (split_word_cases w).flatten = w :=
  split_word_cases_flatten

/-- C7: a chunk whose entire trimmed content matches one of the ignore
patterns produces no tokens (the chunk is skipped before sub-splitting),
and the line `"Visit https://example.com today"` yields exactly the token
words `["Visit", "today"]` with no token for the URL. -/
theorem c7_ignored :
    (∀ (n : Nat) (st : Nat × List Token) (chunk : List Char),
        fullMatchAny (trimChunk chunk) = true → processChunk n st chunk = st) ∧
    (processLine (chars "Visit https://example.com today") 0).map Token.word =
      [chars "Visit", chars "today"] := by
  refine ⟨?_, by decide⟩
  intro n st chunk h
  exact processChunk_ignored h

/-- C7, witness: the bare-number chunk `"404"` fully matches the
pure-number ignore pattern and is skipped. -/
theorem c7_witness :
    fullMatchAny (trimChunk (chars "404")) = true ∧
    processChunk 0 (0, []) (chars "404") = (0, []) :=
  ⟨by decide, c7_ignored.1 0 (0, []) (chars "404") (by decide)⟩

/-- C8: an open failure returns the error with the accumulated tokens
untouched; a failing line read returns the error keeping every token
appended for the preceding lines (no rollback) and processes nothing
further; an error-free source processes every line and returns success;
and `tokenize` succeeds exactly when opening and every line read succeed. -/
theorem c8_error_propagation :
    (∀ (t : Tokenizer) (e : Err),
        tokenize t (Except.error e) = (t, Except.error e)) ∧
    (∀ (t : Tokenizer) (pre : List (List Char)) (e : Err)
        (post : List (Except Err (List Char))),
        tokenize t (Except.ok (pre.map Except.ok ++ Except.error e :: post)) =
          ({ tokens := t.tokens ++ linesTokens pre 0 }, Except.error e)) ∧
    (∀ (t : Tokenizer) (lns : List (List Char)),
        tokenize t (Except.ok (lns.map Except.ok)) =
          ({ tokens := t.tokens ++ linesTokens lns 0 }, Except.ok ())) ∧
    (∀ (t : Tokenizer) (src : Except Err (List (Except Err (List Char)))),
        (tokenize t src).2 = Except.ok () ↔
          ∃ lns : List (List Char), src = Except.ok (lns.map Except.ok)) := by
  refine ⟨?_, ?_, ?_, ?_⟩
  · intro t e
    rfl
  · intro t pre e post
    simp only [tokenize, tokenizeRun]
    rw [tokenizeLines_err]
  · intro t lns
    simp only [tokenize, tokenizeRun]
    rw [tokenizeLines_ok]
  · intro t src
    constructor
    · intro h
      match src with
      | .error e => exact absurd h (by simp [tokenize, tokenizeRun])
      | .ok lns =>
        have h2 : (tokenizeLines t.tokens 0 lns).2 = Except.ok () := h
        rcases tokenizeLines_ok_inv lns t.tokens 0 h2 with ⟨ls, rfl⟩
        exact ⟨ls, rfl⟩
    · rintro ⟨lns, rfl⟩
      show (tokenizeRun t.tokens (Except.ok (lns.map Except.ok))).2 = Except.ok ()
      simp only [tokenizeRun]
      rw [tokenizeLines_ok]

/-- C9: `tokenize` is deterministic over the source content — two runs on
the same source, each starting from a freshly cleared token sequence,
produce identical tokenizer states and results, whatever tokens the two
tokenizers held before clearing. -/
theorem c9_deterministic :
    ∀ (t1 t2 : Tokenizer) (src : Except Err (List (Except Err (List Char)))),
      tokenize (clear_tokens t1) src = tokenize (clear_tokens t2) src := by
  intro t1 t2 src
  rfl

/-- C10: every emitted token word is non-empty, consists solely of ASCII
letters and digits, and starts with an ASCII letter; consequently no token
is digit-only and no token contains an apostrophe, whitespace, or a
separator character. -/
theorem c10_word_invariant :
    ∀ (line : List Char) (n : Nat) (t : Token), t ∈ processLine line n →
      (∃ c cs, t.word = c :: cs ∧ c.isAlpha = true) ∧
      t.word.all Char.isAlphanum = true ∧
      t.word.all Char.isDigit = false ∧
      t.word.all (fun c => !(c == '\'') && !c.isWhitespace &&
        !(c == ' ' || c == '_' || c == '-' || c == '—')) = true := by
  intro line n t ht
  rcases mem_processLine ht with ⟨offset, sc, hmem⟩
  rcases mem_processSubChunk hmem with ⟨m, hm, _, hw, _, _, _⟩
  rcases findWordsAux_shape _ _ _ _ hm with ⟨c, cs, hcons, hc, hall⟩
  have hseg := swcGo_shape m.2 hall m.2 0 0 rfl (Nat.le_refl 0)
    ⟨c, cs, by simpa using hcons, hc⟩ t.word hw
  rcases hseg with ⟨c', cs', hw', hc', hall'⟩
  have hmemw : ∀ x ∈ t.word, x.isAlphanum = true := List.all_eq_true.mp hall'
  refine ⟨⟨c', cs', hw', hc'⟩, hall', ?_, ?_⟩
  · cases hd : t.word.all Char.isDigit with
    | false => rfl
    | true =>
      have : c'.isDigit = true :=
        List.all_eq_true.mp hd c' (by rw [hw']; exact List.mem_cons_self _ _)
      rw [alpha_not_digit hc'] at this
      exact absurd this (by simp)
  · refine List.all_eq_true.mpr ?_
    intro x hx
    have hxa := hmemw x hx
    simp only [alnum_ne_apos hxa, alnum_not_ws hxa]
    have hsep := alnum_not_sep hxa
    simp only [hsep]
    rfl

/-- C10, witness: the token emitted for the line `"ab"` satisfies the word
invariant. -/
theorem c10_witness :
    ((⟨chars "ab", ⟨0, 1, 1⟩⟩ : Token) ∈ processLine (chars "ab") 0) ∧
    ((∃ c cs, (⟨chars "ab", ⟨0, 1, 1⟩⟩ : Token).word = c :: cs ∧ c.isAlpha = true) ∧
      (⟨chars "ab", ⟨0, 1, 1⟩⟩ : Token).word.all Char.isAlphanum = true ∧
      (⟨chars "ab", ⟨0, 1, 1⟩⟩ : Token).word.all Char.isDigit = false ∧
      (⟨chars "ab", ⟨0, 1, 1⟩⟩ : Token).word.all (fun c => !(c == '\'') &&
        !c.isWhitespace &&
        !(c == ' ' || c == '_' || c == '-' || c == '—')) = true) :=
  ⟨by decide, c10_word_invariant (chars "ab") 0 _ (by decide)⟩

end Y3
